import Mathlib

/-!
Verification of the x402-registry agent orchestration core
(`src/routes/agents.ts`) via a shallow embedding in Lean.

Modelling conventions:
* JavaScript `Map` objects (the agent registry and the capability index)
  are modelled as association lists; `Map.set` keeps the original
  insertion position on overwrite and appends otherwise, `Map.get`
  returns an `Option`, and iteration follows insertion order, exactly
  as in the JS semantics.
* JavaScript `Set` objects are modelled as duplicate-free lists where
  `Set.add` appends a missing element at the end.
* JavaScript numbers holding token amounts are modelled as `Int`
  (all amounts in the code are integers, exactly representable);
  scores and fee computations are modelled over `Rat`, with
  `Math.ceil`, `Math.round` and `Math.floor` as the exact operations.
* Falsiness of JS values (`!x`, `x || d`) is modelled explicitly:
  a missing or empty string is falsy, a missing or zero number is falsy.
-/

/-- `Map.get` on an association list: first binding for the key wins. -/
def mapGet {α : Type} (m : List (String × α)) (k : String) : Option α :=
  match m with
  | [] => none
  | (k2, v) :: rest => if k2 = k then some v else mapGet rest k

/-- `Map.set` on an association list: overwrite in place, else append. -/
def mapSet {α : Type} (m : List (String × α)) (k : String) (v : α) :
    List (String × α) :=
  match m with
  | [] => [(k, v)]
  | (k2, v2) :: rest =>
    if k2 = k then (k, v) :: rest else (k2, v2) :: mapSet rest k v

/-- `Set.add` on a duplicate-free list: append if absent. -/
def setAdd (s : List String) (x : String) : List String :=
  if x ∈ s then s else s ++ [x]

/-- JS `opt || dflt` for strings: an absent or empty string is falsy. -/
def jsOrStr (o : Option String) (d : String) : String :=
  match o with
  | none => d
  | some s => if s = "" then d else s

/-- JS falsiness test for an optional string field (`!x`). -/
def jsFalsyStr (o : Option String) : Bool :=
  match o with
  | none => true
  | some s => s = ""

/-- JS falsiness test for an optional numeric field (`!x`): 0 is falsy. -/
def jsFalsyInt (o : Option Int) : Bool :=
  match o with
  | none => true
  | some n => n = 0

/-- JS `String.prototype.toLowerCase`, character by character. -/
def jsToLower (s : String) : String :=
  ⟨s.data.map Char.toLower⟩

/-- JS `String.prototype.includes`: substring containment. -/
def jsIncludes (s sub : String) : Bool :=
  (s.data.tails).any (fun t => sub.data.isPrefixOf t)

/-- `Math.ceil(n * 0.1)` — the fixed 10% platform fee of the source,
computed exactly over the rationals. -/
def platformFee (n : Int) : Int :=
  ⌈(n : ℚ) * 0.1⌉

/-- `Math.round` (half-up) on a rational. -/
def jsRound (q : ℚ) : ℤ :=
  ⌊q + 1 / 2⌋

/-! ### Data model (`src/types`, as used by `agents.ts`) -/

structure Pricing where
  model : String
  basePrice : Int
  token : String
deriving DecidableEq

structure Agent where
  id : String
  name : String
  description : String
  capabilities : List String
  endpoints : List String
  owner : String
  pricing : Pricing
deriving DecidableEq

/-! ### Capability inference (`inferCapabilities`) -/

/-- The fixed keyword table of `inferCapabilities`, in source order. -/
def capabilityKeywords : List (String × List String) :=
  [ ("summarize", ["summarize", "summary", "tldr", "condense"]),
    ("translate", ["translate", "translation", "language"]),
    ("image-generate", ["generate image", "create image", "draw", "illustration"]),
    ("image-analyze", ["analyze image", "describe image", "what\u0027s in this"]),
    ("search", ["search", "find", "look up", "google"]),
    ("web-scrape", ["scrape", "extract from", "crawl"]),
    ("code-generate", ["write code", "generate code", "create function"]),
    ("code-analyze", ["analyze code", "review code", "explain code"]),
    ("blockchain-query", ["blockchain", "transaction", "wallet", "balance"]),
    ("data-transform", ["transform", "convert", "parse", "format"]),
    ("sentiment", ["sentiment", "feeling", "emotion", "tone"]),
    ("classify", ["classify", "categorize", "label", "tag"]) ]

/-- `inferCapabilities(task)`: keyword matching over the lowercased task,
falling back to the singleton `["general"]`. -/
def inferCapabilities (task : String) : List String :=
  let taskLower := jsToLower task
  let capabilities :=
    (capabilityKeywords.filter
      (fun p => p.2.any (fun kw => jsIncludes taskLower kw))).map Prod.fst
  if capabilities.isEmpty then ["general"] else capabilities

/-! ### Agent selection (`selectAgentsForTask`) -/

/-- The preferred-agents pass of `selectAgentsForTask`: for each id in
order, if the agent exists and fits the remaining budget, append it and
deduct its price.  No duplicate check is performed in this pass. -/
def selPreferred (cat : List (String × Agent)) :
    List String → List Agent → Int → List Agent × Int
  | [], sel, rem => (sel, rem)
  | id :: ids, sel, rem =>
    match mapGet cat id with
    | some agent =>
      if agent.pricing.basePrice ≤ rem then
        selPreferred cat ids (sel ++ [agent]) (rem - agent.pricing.basePrice)
      else
        selPreferred cat ids sel rem
    | none => selPreferred cat ids sel rem

/-- The inner loop of the capability pass: iterate one capability entry
of the index, skipping ids already selected, appending agents that fit
the remaining budget. -/
def selCapIds (cat : List (String × Agent)) :
    List String → List Agent → Int → List Agent × Int
  | [], sel, rem => (sel, rem)
  | id :: ids, sel, rem =>
    if sel.any (fun a => a.id = id) then
      selCapIds cat ids sel rem
    else
      match mapGet cat id with
      | some agent =>
        if agent.pricing.basePrice ≤ rem then
          selCapIds cat ids (sel ++ [agent]) (rem - agent.pricing.basePrice)
        else
          selCapIds cat ids sel rem
      | none => selCapIds cat ids sel rem

/-- The capability pass of `selectAgentsForTask`: for each capability in
order, iterate the capability index entry (if any). -/
def selCaps (cat : List (String × Agent)) (idx : List (String × List String)) :
    List String → List Agent → Int → List Agent × Int
  | [], sel, rem => (sel, rem)
  | cap :: caps, sel, rem =>
    match mapGet idx cap with
    | none => selCaps cat idx caps sel rem
    | some ids =>
      let p := selCapIds cat ids sel rem
      selCaps cat idx caps p.1 p.2

/-- `selectAgentsForTask(capabilities, budget, preferredAgents)`. -/
def selectAgentsForTask (cat : List (String × Agent))
    (idx : List (String × List String)) (capabilities : List String)
    (budget : Int) (preferredAgents : Option (List String)) : List Agent :=
  let p :=
    match preferredAgents with
    | some ids => selPreferred cat ids [] budget
    | none => ([], budget)
  (selCaps cat idx capabilities p.1 p.2).1

/-! ### Single-task execution (`POST /agents/execute`) -/

/-- `agent.endpoints[0] || "internal"` (an empty first endpoint is falsy). -/
def primaryEndpoint (a : Agent) : String :=
  match a.endpoints with
  | [] => "internal"
  | e :: _ => if e = "" then "internal" else e

/-- One entry of `ExecutionResult.agentsUsed`.  The simulated
`responseTime` (a fresh random float) is not tracked. -/
structure AgentUsed where
  agentId : String
  endpoint : String
  cost : Int
deriving DecidableEq

/-- The record pushed for one simulated agent call. -/
def mkAgentUsed (a : Agent) : AgentUsed :=
  { agentId := a.id, endpoint := primaryEndpoint a, cost := a.pricing.basePrice }

/-- The simulated execution loop of `/execute`: walk the selected agents
in order, breaking as soon as the remaining budget no longer covers the
next agent, deducting as you go. -/
def execLoop : Int → List Agent → List AgentUsed
  | _, [] => []
  | rem, a :: rest =>
    if rem < a.pricing.basePrice then []
    else mkAgentUsed a :: execLoop (rem - a.pricing.basePrice) rest

/-- `agentResults.reduce((sum, a) => sum + a.cost, 0)`. -/
def usedTotal (l : List AgentUsed) : Int :=
  l.foldl (fun s a => s + a.cost) 0

/-- The request body of `/execute` (`timeout` is unused by the source). -/
structure ExecRequest where
  task : Option String
  budget : Option Int
  token : Option String
  preferredAgents : Option (List String)
deriving DecidableEq

/-- The registry wallet address hard-coded in the source. -/
def registryWallet : String :=
  "SP2QXPFF4M72QYZWXE7S5321XJDJ2DD32DGEMN5QA"

/-- The possible responses of `/execute`.  The fields of the 402 payment
demand follow the source: `amount`, `token`, `recipient`, `memo`, and the
breakdown `agentBudget`/`platformFee`/`total`. -/
inductive ExecuteResponse where
  | badRequest (error : String)
  | paymentRequired (amount : Int) (token : String) (recipient : String)
      (memo : String) (agentBudget : Int) (fee : Int) (total : Int)
  | completed (execId : String) (agentsUsed : List AgentUsed)
      (totalCost : Int) (fee : Int)
deriving DecidableEq

/-- Recognizer for the 402 branch of `/execute`. -/
def ExecuteResponse.isPaymentRequired : ExecuteResponse → Bool
  | .paymentRequired .. => true
  | _ => false

/-- The `/execute` handler.  The freshly generated execution id and the
payment-proof header are passed in explicitly; the random per-agent
response times and wall-clock duration are not tracked. -/
def executeHandler (cat : List (String × Agent))
    (idx : List (String × List String)) (req : ExecRequest)
    (paymentProof : Option String) (execId : String) : ExecuteResponse :=
  if jsFalsyStr req.task || jsFalsyInt req.budget || jsFalsyStr req.token then
    .badRequest "Required: task, budget, token"
  else
    let task := req.task.getD ""
    let budget := req.budget.getD 0
    let token := req.token.getD ""
    match paymentProof with
    | none =>
      let fee := platformFee budget
      .paymentRequired (budget + fee) token registryWallet
        ("execute:" ++ execId) budget fee (budget + fee)
    | some _ =>
      let capabilities := inferCapabilities task
      let selectedAgents := selectAgentsForTask cat idx capabilities budget req.preferredAgents
      let agentResults := execLoop budget selectedAgents
      let totalCost := usedTotal agentResults
      .completed execId agentResults totalCost (platformFee totalCost)

/-! ### Chain execution (`POST /agents/chain`) -/

/-- One element of the `steps` array of a chain request. -/
structure ChainStepIn where
  agentId : String
  action : String
  inputFrom : Option String
deriving DecidableEq

/-- One row of the validated chain plan. -/
structure ChainPlanStep where
  step : Nat
  agentId : String
  agentName : String
  action : String
  estimatedCost : Int
  inputFrom : String
deriving DecidableEq

/-- The price a chain step is billed at: the referenced agent's
`basePrice`, or 0 when the id does not resolve
(`agent?.pricing.basePrice || 0`). -/
def resolvedPrice (cat : List (String × Agent)) (s : ChainStepIn) : Int :=
  match mapGet cat s.agentId with
  | some a => a.pricing.basePrice
  | none => 0

/-- The display name of a chain step
(`agent?.name || "Unknown"`; an empty name is falsy). -/
def resolvedName (cat : List (String × Agent)) (s : ChainStepIn) : String :=
  match mapGet cat s.agentId with
  | some a => if a.name = "" then "Unknown" else a.name
  | none => "Unknown"

/-- `steps.map((step, index) => ...)`: the validated chain plan. -/
def buildChainPlan (cat : List (String × Agent)) (steps : List ChainStepIn) :
    List ChainPlanStep :=
  steps.enum.map fun p =>
    { step := p.1 + 1
      agentId := p.2.agentId
      agentName := resolvedName cat p.2
      action := p.2.action
      estimatedCost := resolvedPrice cat p.2
      inputFrom :=
        jsOrStr p.2.inputFrom (if p.1 > 0 then "step" ++ toString p.1 else "user") }

/-- `chainPlan.reduce((sum, s) => sum + s.estimatedCost, 0)`. -/
def chainCost (cat : List (String × Agent)) (steps : List ChainStepIn) : Int :=
  (buildChainPlan cat steps).foldl (fun s p => s + p.estimatedCost) 0

/-- The possible responses of `/chain`. -/
inductive ChainResponse where
  | badRequest (error : String)
  | paymentRequired (amount : Int) (token : String) (recipient : String)
      (memo : String) (chain : List ChainPlanStep) (totalSteps : Nat)
  | completed (chainId : String) (chain : List ChainPlanStep)
      (totalCost : Int) (fee : Int)
deriving DecidableEq

/-- The `/chain` handler.  `budget` is accepted but never used by the
source.  The fresh chain id and the payment-proof header are explicit. -/
def chainHandler (cat : List (String × Agent)) (steps : List ChainStepIn)
    (budget : Option Int) (token : Option String) (paymentProof : Option String)
    (chainId : String) : ChainResponse :=
  if steps.isEmpty then
    .badRequest "Steps array required"
  else
    let chainPlan := buildChainPlan cat steps
    let totalEstimatedCost := chainCost cat steps
    let fee := platformFee totalEstimatedCost
    match paymentProof with
    | none =>
      .paymentRequired (totalEstimatedCost + fee) (jsOrStr token "sBTC")
        registryWallet ("chain:" ++ chainId) chainPlan steps.length
    | some _ =>
      .completed chainId chainPlan totalEstimatedCost fee

/-! ### Registration (`POST /agents/register`) and the capability index -/

/-- The shared mutable state of the route module: the agent registry map
and the capability index map. -/
structure RegistryState where
  agents : List (String × Agent)
  capIndex : List (String × List String)
deriving DecidableEq

/-- A registration request body.  `description` and `endpoints` default
to `""` and `[]`; absence of `name`/`owner` is modelled by `""` (the
falsy values the validation check rejects). -/
structure RegisterBody where
  name : String
  description : String
  capabilities : List String
  endpoints : List String
  owner : String
  pricing : Pricing
deriving DecidableEq

/-- One `capabilityIndex` update of registration:
`existing = index.get(cap) || new Set(); existing.add(id); index.set(cap, existing)`. -/
def indexAdd (idx : List (String × List String)) (cap id : String) :
    List (String × List String) :=
  mapSet idx cap (setAdd ((mapGet idx cap).getD []) id)

/-- The `Agent` record built and stored by `POST /agents/register`. -/
def mkRegisteredAgent (newId : String) (body : RegisterBody) : Agent :=
  { id := newId, name := body.name, description := body.description
    capabilities := body.capabilities, endpoints := body.endpoints
    owner := body.owner, pricing := body.pricing }

/-- The state change of `POST /agents/register` with fresh id `newId`:
on validation failure the state is untouched, otherwise the agent is
stored and every declared capability is indexed. -/
def registerAgent (st : RegistryState) (newId : String) (body : RegisterBody) :
    RegistryState :=
  if body.name = "" ∨ body.owner = "" then st
  else
    { agents := mapSet st.agents newId (mkRegisteredAgent newId body)
      capIndex := body.capabilities.foldl (fun idx cap => indexAdd idx cap newId) st.capIndex }

/-- A sequence of registrations applied in order. -/
def applyRegs (st : RegistryState) (regs : List (String × RegisterBody)) :
    RegistryState :=
  regs.foldl (fun s r => registerAgent s r.1 r.2) st

/-- The seed agent installed at module load. -/
def seedAgent : Agent :=
  { id := "sbtc-yield-agent"
    name := "sBTC Yield Agent"
    description := "Autonomous DeFi agent for sBTC yield optimization. Deposits to vault, monitors positions, and executes looping strategies on Zest Protocol."
    capabilities := ["defi", "yield-farming", "lending", "blockchain-query", "data-transform"]
    endpoints := ["https://vault.pbtc21.dev"]
    owner := "SP2QXPFF4M72QYZWXE7S5321XJDJ2DD32DGEMN5QA"
    pricing := { model := "per-call", basePrice := 500, token := "sBTC" } }

/-- The module-load state: the seed agent and its indexed capabilities. -/
def initialState : RegistryState :=
  { agents := [("sbtc-yield-agent", seedAgent)]
    capIndex :=
      [ ("defi", ["sbtc-yield-agent"]),
        ("yield-farming", ["sbtc-yield-agent"]),
        ("lending", ["sbtc-yield-agent"]),
        ("blockchain-query", ["sbtc-yield-agent"]),
        ("data-transform", ["sbtc-yield-agent"]) ] }

/-- The capability-index consistency invariant: every registered agent
is listed in the index entry of each of its declared capabilities. -/
def indexConsistent (st : RegistryState) : Prop :=
  ∀ id agent, (id, agent) ∈ st.agents → ∀ cap ∈ agent.capabilities,
    ∃ s, mapGet st.capIndex cap = some s ∧ agent.id ∈ s

/-! ### Recommendation (`POST /agents/recommend`) and the plan builder -/

/-- One element of the `matchingAgents` working list of `/recommend`.
`idx` records the encounter position in the registry iteration
(JS `Map` iteration order), used to state tie stability; the source
keeps this order implicitly in the array. -/
structure MatchEntry where
  idx : Nat
  agent : Agent
  matchedCapabilities : List String
  score : ℚ
deriving DecidableEq

/-- `registry.forEach(...)`: collect each agent with a non-empty
capability match, with `score = matched.length / needed.length`
(exact rational division of the two lengths). -/
def matchEntriesAux (needed : List String) : Nat → List Agent → List MatchEntry
  | _, [] => []
  | i, agent :: rest =>
    let matched := agent.capabilities.filter (fun cap => needed.contains cap)
    if matched.isEmpty then
      matchEntriesAux needed (i + 1) rest
    else
      { idx := i, agent := agent, matchedCapabilities := matched
        score := mkRat matched.length needed.length } :: matchEntriesAux needed (i + 1) rest

/-- The `matchingAgents` list in registry iteration order. -/
def matchEntries (catalog : List Agent) (needed : List String) : List MatchEntry :=
  matchEntriesAux needed 0 catalog

/-- The strict order realised by the stable descending sort of
`/recommend`: strictly greater score first, ties resolved by the
earlier encounter position. -/
def scoreTieOrder (a b : MatchEntry) : Prop :=
  b.score < a.score ∨ (a.score = b.score ∧ a.idx < b.idx)

/-- Insert into a descending-by-score list, after any earlier entry of
greater-or-equal score: the stable insertion realised by
`matchingAgents.sort((a, b) => b.score - a.score)` (JS sort is stable). -/
def insertByScore (x : MatchEntry) : List MatchEntry → List MatchEntry
  | [] => [x]
  | y :: rest =>
    if x.score < y.score then y :: insertByScore x rest else x :: y :: rest

/-- Stable descending sort by score. -/
def sortByScoreDesc (l : List MatchEntry) : List MatchEntry :=
  l.foldr insertByScore []

/-- The budget filter of `/recommend`:
`!budget || m.agent.pricing.basePrice <= budget` (0 is falsy). -/
def budgetFilter (budget : Option Int) (price : Int) : Bool :=
  match budget with
  | none => true
  | some b => if b = 0 then true else price ≤ b

/-- One recommendation record of the response. -/
structure RecOut where
  id : String
  name : String
  description : String
  matchScore : Int
  matchedCapabilities : List String
  pricing : Pricing
deriving DecidableEq

/-- The projection of a matching entry to a response record, with
`matchScore = Math.round(score * 100)`. -/
def mkRecOut (m : MatchEntry) : RecOut :=
  { id := m.agent.id, name := m.agent.name, description := m.agent.description
    matchScore := jsRound (m.score * 100)
    matchedCapabilities := m.matchedCapabilities, pricing := m.agent.pricing }

/-- The full (un-truncated) `recommendations` array: sort descending by
score, filter by budget, project. -/
def recommendations (catalog : List Agent) (needed : List String)
    (budget : Option Int) : List RecOut :=
  ((sortByScoreDesc (matchEntries catalog needed)).filter
      (fun m => budgetFilter budget m.agent.pricing.basePrice)).map mkRecOut

/-- One step of an execution plan. -/
structure PlanStep where
  step : Nat
  agentId : String
  agentName : String
  action : String
  estimatedCost : Int
  estimatedTime : Int
deriving DecidableEq

/-- An execution plan with aggregate cost and time. -/
structure ExecutionPlan where
  steps : List PlanStep
  totalCost : Int
  estimatedTime : Int
deriving DecidableEq

/-- `buildExecutionPlan(task, agents)`: first 5 agents, steps numbered
from 1, per-step time `500 + index * 200`, aggregate sums. -/
def buildExecutionPlan (task : String) (agents : List RecOut) : ExecutionPlan :=
  if agents.isEmpty then
    { steps := [], totalCost := 0, estimatedTime := 0 }
  else
    let steps := (agents.take 5).enum.map fun p =>
      { step := p.1 + 1
        agentId := p.2.id
        agentName := p.2.name
        action := "Execute: " ++ String.intercalate ", " p.2.matchedCapabilities
        estimatedCost := p.2.pricing.basePrice
        estimatedTime := 500 + (p.1 : Int) * 200 }
    { steps := steps
      totalCost := steps.foldl (fun s p => s + p.estimatedCost) 0
      estimatedTime := steps.foldl (fun s p => s + p.estimatedTime) 0 }

/-- `capabilities || inferCapabilities(task)`: a present array (even an
empty one) is truthy. -/
def neededCaps (task : String) (capsOpt : Option (List String)) : List String :=
  match capsOpt with
  | some cs => cs
  | none => inferCapabilities task

/-- The possible responses of `/recommend`. -/
inductive RecommendResponse where
  | badRequest (error : String)
  | ok (task : String) (inferredCapabilities : List String)
      (recommendations : List RecOut) (executionPlan : ExecutionPlan)
      (estimatedCost : Int)
deriving DecidableEq

/-- The recommendation list of a `/recommend` response. -/
def RecommendResponse.recsOf : RecommendResponse → List RecOut
  | .ok _ _ recs _ _ => recs
  | .badRequest _ => []

/-- The `/recommend` handler: infer (or accept) needed capabilities,
rank matching agents, build the plan from the un-truncated list, and
respond with the top 10.  A missing task is modelled by `""` (both are
falsy and yield the same 400). -/
def recommendHandler (catalog : List Agent) (task : String)
    (capsOpt : Option (List String)) (budget : Option Int) : RecommendResponse :=
  if task = "" then
    .badRequest "Task description required"
  else
    let needed := neededCaps task capsOpt
    let recs := recommendations catalog needed budget
    let executionPlan := buildExecutionPlan task recs
    .ok task needed (recs.take 10) executionPlan executionPlan.totalCost

/-! ### Auxiliary predicates and fixtures -/

/-- A catalog is well-formed when every binding maps a key to an agent
bearing that key as its id (true of every state the route builds, since
registration always stores an agent under its own fresh id). -/
def WFCatalog (cat : List (String × Agent)) : Prop :=
  ∀ p ∈ cat, p.2.id = p.1

/-- `BudgetChain b l r`: walking `l` in order from remaining budget `b`,
every agent fits the budget remaining when it is reached, leaving `r`.
This is the accounting discipline shared by `selectAgentsForTask` and
the simulated execution loop. -/
inductive BudgetChain : Int → List Agent → Int → Prop where
  | nil (b : Int) : BudgetChain b [] b
  | cons {a : Agent} {l : List Agent} {b r : Int}
      (hfit : a.pricing.basePrice ≤ b)
      (htail : BudgetChain (b - a.pricing.basePrice) l r) :
      BudgetChain b (a :: l) r

/-- Concrete fixture: a summarization agent priced 500. -/
def agentA : Agent :=
  { id := "agA", name := "A", description := "", capabilities := ["summarize"]
    endpoints := [], owner := "ownerA"
    pricing := { model := "per-call", basePrice := 500, token := "sBTC" } }

/-- Concrete fixture: an agent priced 300. -/
def agentB : Agent :=
  { id := "agB", name := "B", description := "", capabilities := ["x"]
    endpoints := [], owner := "ownerB"
    pricing := { model := "per-call", basePrice := 300, token := "sBTC" } }

/-- Concrete fixture: an agent priced 700. -/
def agentC : Agent :=
  { id := "agC", name := "C", description := "", capabilities := ["y"]
    endpoints := [], owner := "ownerC"
    pricing := { model := "per-call", basePrice := 700, token := "sBTC" } }

/-- Concrete fixture: a catalog holding agents priced 300 and 700. -/
def catalogBC : List (String × Agent) :=
  [("agB", agentB), ("agC", agentC)]

/-- Concrete fixture: a two-step chain referencing `agentB` and `agentC`. -/
def stepsBC : List ChainStepIn :=
  [{ agentId := "agB", action := "do", inputFrom := none },
   { agentId := "agC", action := "do2", inputFrom := none }]

/-- Concrete fixture: two recommendation records for the plan builder. -/
def recsW : List RecOut :=
  [{ id := "agA", name := "A", description := "", matchScore := 100
     matchedCapabilities := ["summarize"]
     pricing := { model := "per-call", basePrice := 500, token := "sBTC" } },
   { id := "agB", name := "B", description := "", matchScore := 50
     matchedCapabilities := ["x"]
     pricing := { model := "per-call", basePrice := 300, token := "sBTC" } }]

/-- Concrete fixture: a valid registration body with two capabilities. -/
def regBodyW : RegisterBody :=
  { name := "W", description := "d", capabilities := ["foo", "bar"]
    endpoints := [], owner := "ownerW"
    pricing := { model := "per-call", basePrice := 100, token := "sBTC" } }

/-! ## Theorems -/

/-! ### General helper lemmas -/

theorem inferCapabilities_eq (task : String) :
    inferCapabilities task =
      if ((capabilityKeywords.filter
            (fun p => p.2.any (fun kw => jsIncludes (jsToLower task) kw))).map
            Prod.fst).isEmpty
      then ["general"]
      else (capabilityKeywords.filter
            (fun p => p.2.any (fun kw => jsIncludes (jsToLower task) kw))).map
            Prod.fst :=
  rfl

theorem foldl_add_eq_sum {β : Type} (f : β → Int) (l : List β) :
    ∀ c : Int, l.foldl (fun s x => s + f x) c = c + (l.map f).sum := by
  induction l with
  | nil => intro c; simp
  | cons x xs ih => intro c; simp [ih (c + f x)]; ring

/-! ### C6: inference totality -/

/-- C6: for every task string, `inferCapabilities` returns a non-empty
list of capability tags, and when no keyword of any capability occurs
(case-insensitively) in the task, the result is exactly `["general"]`. -/
theorem C6_inference_totality (task : String) :
    inferCapabilities task ≠ [] ∧
    ((∀ p ∈ capabilityKeywords, ∀ kw ∈ p.2,
        jsIncludes (jsToLower task) kw = false) →
      inferCapabilities task = ["general"]) := by
  constructor
  · rw [inferCapabilities_eq]
    split
    · simp
    · rename_i h
      intro hnil
      rw [hnil] at h
      simp at h
  · intro hall
    rw [inferCapabilities_eq]
    have hfil : (capabilityKeywords.filter
        (fun p => p.2.any (fun kw => jsIncludes (jsToLower task) kw))) = [] := by
      rw [List.filter_eq_nil_iff]
      intro p hp
      simp only [List.any_eq_true, not_exists, not_and, Bool.not_eq_true]
      intro kw hkw
      exact hall p hp kw hkw
    rw [hfil]
    simp

/-- Witness for C6 at the task `"zzz"`, which matches no keyword. -/
theorem C6_witness : inferCapabilities "zzz" = ["general"] :=
  (C6_inference_totality "zzz").2 (by decide)

/-! ### Budget-chain lemmas and selection phase lemmas -/

theorem budgetChain_append {b m r : Int} {l1 l2 : List Agent}
    (h1 : BudgetChain b l1 m) (h2 : BudgetChain m l2 r) :
    BudgetChain b (l1 ++ l2) r := by
  induction h1 with
  | nil => simpa using h2
  | cons hfit _ ih => exact .cons hfit (ih h2)

theorem budgetChain_sum {b r : Int} {l : List Agent}
    (h : BudgetChain b l r) :
    (l.map (fun a => a.pricing.basePrice)).sum = b - r := by
  induction h with
  | nil => simp
  | cons hfit _ ih => simp [ih]; ring

theorem budgetChain_nonneg {b r : Int} {l : List Agent}
    (hb : 0 ≤ b) (h : BudgetChain b l r) : 0 ≤ r := by
  induction h with
  | nil => exact hb
  | cons hfit htail ih => exact ih (by omega)

theorem selPreferred_chain (cat : List (String × Agent)) (ids : List String) :
    ∀ sel rem, ∃ extra rem2,
      selPreferred cat ids sel rem = (sel ++ extra, rem2) ∧
      BudgetChain rem extra rem2 := by
  induction ids with
  | nil => intro sel rem; exact ⟨[], rem, by simp [selPreferred], .nil rem⟩
  | cons id ids ih =>
    intro sel rem
    rcases hget : mapGet cat id with _ | agent
    · obtain ⟨e, r2, heq, hch⟩ := ih sel rem
      exact ⟨e, r2, by simp only [selPreferred, hget]; exact heq, hch⟩
    · by_cases hle : agent.pricing.basePrice ≤ rem
      · obtain ⟨e, r2, heq, hch⟩ := ih (sel ++ [agent]) (rem - agent.pricing.basePrice)
        refine ⟨agent :: e, r2, ?_, .cons hle hch⟩
        simp only [selPreferred, hget, if_pos hle]
        simpa using heq
      · obtain ⟨e, r2, heq, hch⟩ := ih sel rem
        exact ⟨e, r2, by simp only [selPreferred, hget, if_neg hle]; exact heq, hch⟩

theorem selCapIds_chain (cat : List (String × Agent)) (ids : List String) :
    ∀ sel rem, ∃ extra rem2,
      selCapIds cat ids sel rem = (sel ++ extra, rem2) ∧
      BudgetChain rem extra rem2 := by
  induction ids with
  | nil => intro sel rem; exact ⟨[], rem, by simp [selCapIds], .nil rem⟩
  | cons id ids ih =>
    intro sel rem
    by_cases hdup : sel.any (fun a => a.id = id)
    · obtain ⟨e, r2, heq, hch⟩ := ih sel rem
      exact ⟨e, r2, by simp only [selCapIds, if_pos hdup]; exact heq, hch⟩
    · rcases hget : mapGet cat id with _ | agent
      · obtain ⟨e, r2, heq, hch⟩ := ih sel rem
        exact ⟨e, r2, by simp only [selCapIds, if_neg hdup, hget]; exact heq, hch⟩
      · by_cases hle : agent.pricing.basePrice ≤ rem
        · obtain ⟨e, r2, heq, hch⟩ := ih (sel ++ [agent]) (rem - agent.pricing.basePrice)
          refine ⟨agent :: e, r2, ?_, .cons hle hch⟩
          simp only [selCapIds, if_neg hdup, hget, if_pos hle]
          simpa using heq
        · obtain ⟨e, r2, heq, hch⟩ := ih sel rem
          exact ⟨e, r2, by simp only [selCapIds, if_neg hdup, hget, if_neg hle]; exact heq, hch⟩

theorem selCaps_chain (cat : List (String × Agent))
    (idx : List (String × List String)) (caps : List String) :
    ∀ sel rem, ∃ extra rem2,
      selCaps cat idx caps sel rem = (sel ++ extra, rem2) ∧
      BudgetChain rem extra rem2 := by
  induction caps with
  | nil => intro sel rem; exact ⟨[], rem, by simp [selCaps], .nil rem⟩
  | cons cap caps ih =>
    intro sel rem
    rcases hget : mapGet idx cap with _ | ids
    · obtain ⟨e, r2, heq, hch⟩ := ih sel rem
      exact ⟨e, r2, by simp only [selCaps, hget]; exact heq, hch⟩
    · obtain ⟨e1, r1, heq1, hch1⟩ := selCapIds_chain cat ids sel rem
      obtain ⟨e2, r2, heq2, hch2⟩ := ih (sel ++ e1) r1
      refine ⟨e1 ++ e2, r2, ?_, budgetChain_append hch1 hch2⟩
      simp only [selCaps, hget, heq1]
      simpa [List.append_assoc] using heq2

theorem select_chain (cat : List (String × Agent))
    (idx : List (String × List String)) (caps : List String) (budget : Int)
    (preferred : Option (List String)) :
    ∃ rem2, BudgetChain budget
      (selectAgentsForTask cat idx caps budget preferred) rem2 := by
  rcases preferred with _ | ids
  · obtain ⟨e, r2, heq, hch⟩ := selCaps_chain cat idx caps [] budget
    exact ⟨r2, by simpa [selectAgentsForTask, heq] using hch⟩
  · obtain ⟨e1, r1, heq1, hch1⟩ := selPreferred_chain cat ids [] budget
    obtain ⟨e2, r2, heq2, hch2⟩ := selCaps_chain cat idx caps e1 r1
    refine ⟨r2, ?_⟩
    have : selectAgentsForTask cat idx caps budget (some ids) = e1 ++ e2 := by
      simp [selectAgentsForTask, heq1, heq2]
    rw [this]
    exact budgetChain_append hch1 hch2

theorem execLoop_of_chain {b r : Int} {l : List Agent}
    (h : BudgetChain b l r) :
    execLoop b l = l.map mkAgentUsed := by
  induction h with
  | nil => simp [execLoop]
  | cons hfit _ ih =>
    rw [List.map_cons, execLoop, if_neg (by omega), ih]

theorem usedTotal_eq_sum (l : List AgentUsed) :
    usedTotal l = (l.map (fun a => a.cost)).sum := by
  unfold usedTotal
  simpa using foldl_add_eq_sum (fun a => a.cost) l 0

/-! ### C1: selection budget invariant -/

/-- C1: for every catalog whose agents have non-negative `basePrice`,
every capability list, non-negative budget, and optional preferred list,
the total `basePrice` of the agents returned by `selectAgentsForTask`
never exceeds the budget. -/
theorem C1_selection_budget_invariant (cat : List (String × Agent))
    (idx : List (String × List String)) (caps : List String) (budget : Int)
    (preferred : Option (List String)) (hb : 0 ≤ budget)
    (hp : ∀ p ∈ cat, 0 ≤ p.2.pricing.basePrice) :
    ((selectAgentsForTask cat idx caps budget preferred).map
      (fun a => a.pricing.basePrice)).sum ≤ budget := by
  obtain ⟨r, hch⟩ := select_chain cat idx caps budget preferred
  have hsum := budgetChain_sum hch
  have hr := budgetChain_nonneg hb hch
  omega

/-- Witness for C1: the seed catalog, capability `"defi"`, budget 600. -/
theorem C1_witness :
    ((selectAgentsForTask initialState.agents initialState.capIndex
        ["defi"] 600 none).map (fun a => a.pricing.basePrice)).sum ≤ 600 :=
  C1_selection_budget_invariant initialState.agents initialState.capIndex
    ["defi"] 600 none (by decide) (by decide)

/-! ### C10: the execute loop never breaks on a selected agent -/

/-- C10: in the paid `/execute` flow, the in-loop budget guard never
fires for the agents returned by `selectAgentsForTask`: the loop
produces exactly one `agentsUsed` entry per selected agent, and the
reported `totalCost` is the sum of selected prices and never exceeds
the budget. -/
theorem C10_exec_loop_covers_selection (cat : List (String × Agent))
    (idx : List (String × List String)) (caps : List String) (budget : Int)
    (preferred : Option (List String)) (hb : 0 ≤ budget)
    (hp : ∀ p ∈ cat, 0 ≤ p.2.pricing.basePrice) :
    execLoop budget (selectAgentsForTask cat idx caps budget preferred) =
      (selectAgentsForTask cat idx caps budget preferred).map mkAgentUsed ∧
    (execLoop budget (selectAgentsForTask cat idx caps budget preferred)).length =
      (selectAgentsForTask cat idx caps budget preferred).length ∧
    usedTotal (execLoop budget (selectAgentsForTask cat idx caps budget preferred)) =
      ((selectAgentsForTask cat idx caps budget preferred).map
        (fun a => a.pricing.basePrice)).sum ∧
    usedTotal (execLoop budget (selectAgentsForTask cat idx caps budget preferred)) ≤
      budget := by
  obtain ⟨r, hch⟩ := select_chain cat idx caps budget preferred
  have hloop := execLoop_of_chain hch
  have hsum := budgetChain_sum hch
  have hr := budgetChain_nonneg hb hch
  have hcost : usedTotal (execLoop budget
      (selectAgentsForTask cat idx caps budget preferred)) =
      ((selectAgentsForTask cat idx caps budget preferred).map
        (fun a => a.pricing.basePrice)).sum := by
    rw [hloop, usedTotal_eq_sum, List.map_map]
    rfl
  refine ⟨hloop, by rw [hloop]; simp, hcost, ?_⟩
  rw [hcost, hsum]
  omega

/-- Witness for C10: the seed catalog, capability `"defi"`, budget 600. -/
theorem C10_witness :
    usedTotal (execLoop 600 (selectAgentsForTask initialState.agents
      initialState.capIndex ["defi"] 600 none)) ≤ 600 :=
  (C10_exec_loop_covers_selection initialState.agents initialState.capIndex
    ["defi"] 600 none (by decide) (by decide)).2.2.2

/-! ### C2: selection returns a non-overlapping subset (corrected) -/

theorem mapGet_mem {α : Type} {m : List (String × α)} {k : String} {v : α}
    (h : mapGet m k = some v) : (k, v) ∈ m := by
  induction m with
  | nil => simp [mapGet] at h
  | cons p rest ih =>
    obtain ⟨k2, v2⟩ := p
    rw [mapGet] at h
    by_cases hk : k2 = k
    · rw [if_pos hk] at h
      cases h
      subst hk
      exact List.mem_cons_self _ _
    · rw [if_neg hk] at h
      exact List.mem_cons_of_mem _ (ih h)

theorem WFCatalog.id_eq {cat : List (String × Agent)} (hwf : WFCatalog cat)
    {k : String} {a : Agent} (h : mapGet cat k = some a) : a.id = k :=
  hwf (k, a) (mapGet_mem h)

theorem selPreferred_nodup {cat : List (String × Agent)} (hwf : WFCatalog cat)
    (ids : List String) :
    ∀ sel rem, (sel.map Agent.id).Nodup → ids.Nodup →
      (∀ i ∈ ids, i ∉ sel.map Agent.id) →
      (((selPreferred cat ids sel rem).1).map Agent.id).Nodup := by
  induction ids with
  | nil => intro sel rem hsel _ _; simpa [selPreferred] using hsel
  | cons id ids ih =>
    intro sel rem hsel hids hdisj
    have hids' := (List.nodup_cons.mp hids).2
    have hhead := (List.nodup_cons.mp hids).1
    rcases hget : mapGet cat id with _ | agent
    · simp only [selPreferred, hget]
      exact ih sel rem hsel hids' (fun i hi => hdisj i (List.mem_cons_of_mem _ hi))
    · by_cases hle : agent.pricing.basePrice ≤ rem
      · simp only [selPreferred, hget, if_pos hle]
        refine ih (sel ++ [agent]) (rem - agent.pricing.basePrice) ?_ hids' ?_
        · rw [List.map_append, List.nodup_append]
          refine ⟨hsel, by simp, ?_⟩
          intro x hx
          simp only [List.map_cons, List.map_nil, List.mem_singleton]
          intro hxa
          rw [hxa, hwf.id_eq hget] at hx
          exact hdisj id (List.mem_cons_self _ _) hx
        · intro i hi
          rw [List.map_append]
          simp only [List.mem_append, List.map_cons, List.map_nil,
            List.mem_singleton, not_or]
          refine ⟨hdisj i (List.mem_cons_of_mem _ hi), ?_⟩
          rw [hwf.id_eq hget]
          intro hii
          rw [hii] at hi
          exact hhead hi
      · simp only [selPreferred, hget, if_neg hle]
        exact ih sel rem hsel hids' (fun i hi => hdisj i (List.mem_cons_of_mem _ hi))

theorem selCapIds_nodup {cat : List (String × Agent)} (hwf : WFCatalog cat)
    (ids : List String) :
    ∀ sel rem, (sel.map Agent.id).Nodup →
      (((selCapIds cat ids sel rem).1).map Agent.id).Nodup := by
  induction ids with
  | nil => intro sel rem hsel; simpa [selCapIds] using hsel
  | cons id ids ih =>
    intro sel rem hsel
    by_cases hdup : sel.any (fun a => a.id = id)
    · simp only [selCapIds, if_pos hdup]
      exact ih sel rem hsel
    · rcases hget : mapGet cat id with _ | agent
      · simp only [selCapIds, if_neg hdup, hget]
        exact ih sel rem hsel
      · by_cases hle : agent.pricing.basePrice ≤ rem
        · simp only [selCapIds, if_neg hdup, hget, if_pos hle]
          refine ih (sel ++ [agent]) (rem - agent.pricing.basePrice) ?_
          rw [List.map_append, List.nodup_append]
          refine ⟨hsel, by simp, ?_⟩
          intro x hx
          simp only [List.map_cons, List.map_nil, List.mem_singleton]
          intro hxa
          rw [hwf.id_eq hget] at hxa
          simp only [List.any_eq_true, not_exists, not_and] at hdup
          obtain ⟨a, ha, rfl⟩ := List.mem_map.mp hx
          have := hdup a ha
          simp only [decide_eq_true_eq] at this
          exact this hxa
        · simp only [selCapIds, if_neg hdup, hget, if_neg hle]
          exact ih sel rem hsel
      
theorem selCaps_nodup {cat : List (String × Agent)} (hwf : WFCatalog cat)
    (idx : List (String × List String)) (caps : List String) :
    ∀ sel rem, (sel.map Agent.id).Nodup →
      (((selCaps cat idx caps sel rem).1).map Agent.id).Nodup := by
  induction caps with
  | nil => intro sel rem hsel; simpa [selCaps] using hsel
  | cons cap caps ih =>
    intro sel rem hsel
    rcases hget : mapGet idx cap with _ | ids
    · simp only [selCaps, hget]
      exact ih sel rem hsel
    · simp only [selCaps, hget]
      exact ih _ _ (selCapIds_nodup hwf ids sel rem hsel)

/-- C2 counterexample: with one agent priced 500, budget 1000, and the
preferred list `["agA", "agA"]` repeating its id, `selectAgentsForTask`
returns the same agent twice — the claimed no-duplication fails. -/
theorem C2_counterexample :
    (selectAgentsForTask [("agA", agentA)] [] [] 1000
        (some ["agA", "agA"])).map Agent.id = ["agA", "agA"] ∧
    ¬ ((selectAgentsForTask [("agA", agentA)] [] [] 1000
        (some ["agA", "agA"])).map Agent.id).Nodup := by
  exact ⟨by decide, by decide⟩

/-- C2 (amended): provided the catalog maps each key to an agent bearing
that id and the preferred list contains no repeated ids, no agent
appears more than once in the sequence returned by
`selectAgentsForTask` (the capability pass deduplicates
unconditionally). -/
theorem C2_selection_nodup (cat : List (String × Agent))
    (idx : List (String × List String)) (caps : List String) (budget : Int)
    (preferred : Option (List String)) (hwf : WFCatalog cat)
    (hpref : ∀ ids, preferred = some ids → ids.Nodup) :
    ((selectAgentsForTask cat idx caps budget preferred).map Agent.id).Nodup := by
  rcases preferred with _ | ids
  · exact selCaps_nodup hwf idx caps [] budget (by simp)
  · have hids := hpref ids rfl
    have h1 : (((selPreferred cat ids [] budget).1).map Agent.id).Nodup :=
      selPreferred_nodup hwf ids [] budget (by simp) hids (by simp)
    exact selCaps_nodup hwf idx caps _ _ h1

/-- Witness for C2 (amended) on the seed catalog with a duplicate-free
preferred list. -/
theorem C2_witness :
    ((selectAgentsForTask initialState.agents initialState.capIndex
        ["defi"] 1000 (some ["sbtc-yield-agent"])).map Agent.id).Nodup :=
  C2_selection_nodup initialState.agents initialState.capIndex ["defi"] 1000
    (some ["sbtc-yield-agent"]) (by unfold WFCatalog; decide)
    (by intro ids h; cases h; decide)

/-! ### C3: the `/execute` payment gate (corrected) -/

/-- C3 counterexample: a request carrying `task`, `budget = 0` and
`token`, without payment proof, is rejected as a validation error (0 is
falsy in JS), not answered with a payment demand. -/
theorem C3_counterexample :
    executeHandler [] []
        { task := some "summarize this", budget := some 0,
          token := some "sBTC", preferredAgents := none } none "e1"
      = .badRequest "Required: task, budget, token" ∧
    (executeHandler [] []
        { task := some "summarize this", budget := some 0,
          token := some "sBTC", preferredAgents := none } none "e1").isPaymentRequired
      = false := by
  exact ⟨by decide, by decide⟩

/-- C3 (amended): for every request carrying a non-empty `task`, a
nonzero `budget` and a non-empty `token` but no payment proof,
`/execute` answers 402 with `amount = budget + platformFee` and
`platformFee = ceil(budget * 0.10)`. -/
theorem C3_payment_gate (cat : List (String × Agent))
    (idx : List (String × List String)) (t : String) (b : Int) (tok : String)
    (pref : Option (List String)) (execId : String)
    (ht : t ≠ "") (hb : b ≠ 0) (htok : tok ≠ "") :
    executeHandler cat idx
        { task := some t, budget := some b, token := some tok,
          preferredAgents := pref } none execId =
      .paymentRequired (b + platformFee b) tok registryWallet
        ("execute:" ++ execId) b (platformFee b) (b + platformFee b) := by
  simp [executeHandler, jsFalsyStr, jsFalsyInt, ht, hb, htok]

/-- Witness for C3 (amended): `budget = 100` yields `amount = 110`. -/
theorem C3_witness :
    executeHandler [] []
        { task := some "summarize this", budget := some 100,
          token := some "sBTC", preferredAgents := none } none "e1"
      = .paymentRequired 110 "sBTC" registryWallet "execute:e1" 100 10 110 := by
  have h := C3_payment_gate [] [] "summarize this" 100 "sBTC" none "e1"
    (by decide) (by decide) (by decide)
  rw [h]
  with_unfolding_all decide

/-! ### C5: `/execute` input validation (corrected) -/

/-- C5 counterexample: a request in which `task`, `budget` and `token`
are all present (token = `""`) still fails validation, because an empty
string is falsy. -/
theorem C5_counterexample :
    executeHandler [] []
        { task := some "do the thing", budget := some 5,
          token := some "", preferredAgents := none } (some "proof") "e1"
      = .badRequest "Required: task, budget, token" := by
  decide

/-- C5 (amended): `/execute` fails with the validation error exactly
when `task` is absent or empty, or `budget` is absent or zero, or
`token` is absent or empty; otherwise it proceeds to the payment gate
or to execution. -/
theorem C5_validation_iff (cat : List (String × Agent))
    (idx : List (String × List String)) (req : ExecRequest)
    (paymentProof : Option String) (execId : String) :
    executeHandler cat idx req paymentProof execId =
        .badRequest "Required: task, budget, token" ↔
      (jsFalsyStr req.task || jsFalsyInt req.budget ||
        jsFalsyStr req.token) = true := by
  unfold executeHandler
  by_cases hcond : (jsFalsyStr req.task || jsFalsyInt req.budget ||
      jsFalsyStr req.token) = true
  · simp [hcond]
  · simp only [Bool.not_eq_true] at hcond
    rw [hcond]
    rcases paymentProof with _ | p
    · simp
    · simp

/-! ### C4: chain cost, placeholder pricing and fee -/

theorem buildChainPlan_costs (cat : List (String × Agent))
    (steps : List ChainStepIn) :
    (buildChainPlan cat steps).map (fun p => p.estimatedCost) =
      steps.map (resolvedPrice cat) := by
  unfold buildChainPlan
  rw [List.map_map]
  have h2 : steps.enum.map
      ((fun p => p.estimatedCost) ∘ (fun p =>
        ({ step := p.1 + 1, agentId := p.2.agentId,
           agentName := resolvedName cat p.2, action := p.2.action,
           estimatedCost := resolvedPrice cat p.2,
           inputFrom := jsOrStr p.2.inputFrom
             (if p.1 > 0 then "step" ++ toString p.1 else "user") } : ChainPlanStep)))
      = steps.enum.map ((resolvedPrice cat) ∘ Prod.snd) := rfl
  rw [h2, ← List.map_map, List.enum_map_snd]

theorem chainCost_eq (cat : List (String × Agent)) (steps : List ChainStepIn) :
    chainCost cat steps = (steps.map (resolvedPrice cat)).sum := by
  unfold chainCost
  rw [foldl_add_eq_sum (fun p => p.estimatedCost) (buildChainPlan cat steps) 0,
    buildChainPlan_costs]
  ring

/-- C4: for every non-empty step list, `/chain` prices each step at the
referenced agent's `basePrice` (0 with placeholder name `"Unknown"`
when the id does not resolve — no rejection), computes
`totalCost` as the sum of those prices, and with no payment proof
demands `totalCost + ceil(totalCost * 0.10)`. -/
theorem C4_chain_cost_and_fee (cat : List (String × Agent))
    (steps : List ChainStepIn) (budget : Option Int) (token : Option String)
    (cid : String) (h : steps ≠ []) :
    chainHandler cat steps budget token none cid =
      .paymentRequired
        ((steps.map (resolvedPrice cat)).sum +
          platformFee ((steps.map (resolvedPrice cat)).sum))
        (jsOrStr token "sBTC") registryWallet ("chain:" ++ cid)
        (buildChainPlan cat steps) steps.length ∧
    (buildChainPlan cat steps).map (fun p => p.estimatedCost) =
      steps.map (resolvedPrice cat) ∧
    ∀ s ∈ steps, mapGet cat s.agentId = none →
      resolvedPrice cat s = 0 ∧ resolvedName cat s = "Unknown" := by
  refine ⟨?_, buildChainPlan_costs cat steps, ?_⟩
  · unfold chainHandler
    rw [if_neg (by simp [List.isEmpty_eq_false.mpr h])]
    simp [chainCost_eq]
  · intro s _ hnone
    simp [resolvedPrice, resolvedName, hnone]

set_option maxRecDepth 8000 in
/-- Witness for C4: two steps priced 300 and 700 give a demand of 1100. -/
theorem C4_witness :
    chainHandler catalogBC stepsBC none none none "c1" =
      .paymentRequired 1100 "sBTC" registryWallet "chain:c1"
        (buildChainPlan catalogBC stepsBC) 2 := by
  have h := (C4_chain_cost_and_fee catalogBC stepsBC none none "c1"
    (by decide)).1
  rw [h]
  with_unfolding_all decide

/-! ### C7: capability index consistency -/

theorem mapGet_mapSet_self {α : Type} (m : List (String × α)) (k : String)
    (v : α) : mapGet (mapSet m k v) k = some v := by
  induction m with
  | nil => simp [mapSet, mapGet]
  | cons p rest ih =>
    obtain ⟨k2, v2⟩ := p
    by_cases hk : k2 = k
    · simp [mapSet, hk, mapGet]
    · simp [mapSet, hk, mapGet, ih]

theorem mapGet_mapSet_ne {α : Type} (m : List (String × α)) (k k2 : String)
    (v : α) (h : k2 ≠ k) : mapGet (mapSet m k v) k2 = mapGet m k2 := by
  have h2 : ¬ k = k2 := fun he => h he.symm
  induction m with
  | nil => simp [mapSet, mapGet, h2]
  | cons p rest ih =>
    obtain ⟨k3, v3⟩ := p
    by_cases hk : k3 = k
    · subst hk
      simp [mapSet, mapGet, h2]
    · simp [mapSet, hk, mapGet, ih]

theorem mem_mapSet {α : Type} {k : String} {v : α} :
    ∀ {m : List (String × α)} {p : String × α},
      p ∈ mapSet m k v → p ∈ m ∨ p = (k, v) := by
  intro m
  induction m with
  | nil => intro p h; simpa [mapSet] using h
  | cons q rest ih =>
    intro p h
    obtain ⟨k2, v2⟩ := q
    by_cases hk : k2 = k
    · rw [mapSet, if_pos hk] at h
      rcases List.mem_cons.mp h with h | h
      · right; exact h
      · left; exact List.mem_cons_of_mem _ h
    · rw [mapSet, if_neg hk] at h
      rcases List.mem_cons.mp h with h | h
      · left; exact h ▸ List.mem_cons_self _ _
      · rcases ih h with h2 | h2
        · left; exact List.mem_cons_of_mem _ h2
        · right; exact h2

theorem mem_setAdd_self (s : List String) (x : String) : x ∈ setAdd s x := by
  unfold setAdd
  by_cases hin : x ∈ s
  · rw [if_pos hin]; exact hin
  · rw [if_neg hin]; simp

theorem mem_setAdd_of_mem {s : List String} {y : String} (x : String)
    (h : y ∈ s) : y ∈ setAdd s x := by
  unfold setAdd
  by_cases hin : x ∈ s
  · rw [if_pos hin]; exact h
  · rw [if_neg hin]; exact List.mem_append_left _ h

theorem indexAdd_preserves {idx : List (String × List String)}
    {cap2 id2 : String} (cap id : String)
    (h : ∃ s, mapGet idx cap2 = some s ∧ id2 ∈ s) :
    ∃ s, mapGet (indexAdd idx cap id) cap2 = some s ∧ id2 ∈ s := by
  obtain ⟨s, hget, hmem⟩ := h
  by_cases hc : cap2 = cap
  · subst hc
    refine ⟨setAdd ((mapGet idx cap2).getD []) id,
      mapGet_mapSet_self idx cap2 _, ?_⟩
    rw [hget]
    exact mem_setAdd_of_mem id hmem
  · rw [indexAdd, mapGet_mapSet_ne _ _ _ _ hc]
    exact ⟨s, hget, hmem⟩

theorem foldl_indexAdd_preserves (caps : List String) (id : String) :
    ∀ idx : List (String × List String), ∀ cap2 id2 : String,
      (∃ s, mapGet idx cap2 = some s ∧ id2 ∈ s) →
      ∃ s, mapGet (caps.foldl (fun i c => indexAdd i c id) idx) cap2 = some s ∧
        id2 ∈ s := by
  induction caps with
  | nil => intro idx cap2 id2 h; simpa using h
  | cons c caps ih =>
    intro idx cap2 id2 h
    exact ih (indexAdd idx c id) cap2 id2 (indexAdd_preserves c id h)

theorem foldl_indexAdd_self (caps : List String) (id : String) :
    ∀ idx : List (String × List String), ∀ cap ∈ caps,
      ∃ s, mapGet (caps.foldl (fun i c => indexAdd i c id) idx) cap = some s ∧
        id ∈ s := by
  induction caps with
  | nil => intro idx cap h; simp at h
  | cons c caps ih =>
    intro idx cap hmem
    rcases List.mem_cons.mp hmem with rfl | hmem2
    · refine foldl_indexAdd_preserves caps id (indexAdd idx cap id) cap id ?_
      exact ⟨setAdd ((mapGet idx cap).getD []) id,
        mapGet_mapSet_self idx cap _, mem_setAdd_self _ id⟩
    · exact ih (indexAdd idx c id) cap hmem2

theorem registerAgent_consistent {st : RegistryState}
    (h : indexConsistent st) (newId : String) (body : RegisterBody) :
    indexConsistent (registerAgent st newId body) := by
  unfold registerAgent
  split
  · exact h
  · intro id agent hmem cap hcap
    rcases mem_mapSet hmem with hold | hnew
    · exact foldl_indexAdd_preserves body.capabilities newId st.capIndex cap
        agent.id (h id agent hold cap hcap)
    · have hag : agent = mkRegisteredAgent newId body := congrArg Prod.snd hnew
      subst hag
      simp only [mkRegisteredAgent] at hcap ⊢
      exact foldl_indexAdd_self body.capabilities newId st.capIndex cap hcap

theorem initialState_consistent : indexConsistent initialState := by
  intro id agent hmem cap hcap
  have : (id, agent) = ("sbtc-yield-agent", seedAgent) := by
    simpa [initialState] using hmem
  have hid : id = "sbtc-yield-agent" := congrArg Prod.fst this
  have hag : agent = seedAgent := congrArg Prod.snd this
  subst hag
  have hcap5 : cap = "defi" ∨ cap = "yield-farming" ∨ cap = "lending" ∨
      cap = "blockchain-query" ∨ cap = "data-transform" := by
    simpa [seedAgent] using hcap
  rcases hcap5 with rfl | rfl | rfl | rfl | rfl <;>
    exact ⟨["sbtc-yield-agent"], by decide, by decide⟩

theorem applyRegs_consistent (regs : List (String × RegisterBody)) :
    ∀ st, indexConsistent st → indexConsistent (applyRegs st regs) := by
  induction regs with
  | nil => intro st h; exact h
  | cons r regs ih =>
    intro st h
    exact ih (registerAgent st r.1 r.2) (registerAgent_consistent h r.1 r.2)

/-- C7: in every state reachable from the seeded initial state by a
sequence of registrations, every registered agent is listed in the
capability index entry of each of its declared capabilities. -/
theorem C7_index_consistency (regs : List (String × RegisterBody))
    (id : String) (agent : Agent)
    (hmem : (id, agent) ∈ (applyRegs initialState regs).agents)
    (cap : String) (hcap : cap ∈ agent.capabilities) :
    ∃ s, mapGet (applyRegs initialState regs).capIndex cap = some s ∧
      agent.id ∈ s :=
  applyRegs_consistent regs initialState initialState_consistent
    id agent hmem cap hcap

/-- Witness for C7: after registering a body with capability `"foo"`
under the fresh id `"agent_1"`, the index entry for `"foo"` contains
`"agent_1"`. -/
theorem C7_witness :
    ((mapGet (applyRegs initialState [("agent_1", regBodyW)]).capIndex
        "foo").getD []).contains "agent_1" = true := by
  obtain ⟨s, hg, hm⟩ := C7_index_consistency [("agent_1", regBodyW)] "agent_1"
    (mkRegisteredAgent "agent_1" regBodyW) (by decide) "foo" (by decide)
  rw [hg]
  simpa using hm

/-! ### C8: the execution plan builder contract -/

/-- C8: `buildExecutionPlan` takes at most the first 5 agents, numbers
steps from 1 in input order, gives step `i` (0-indexed) the time
`500 + i * 200`, reports `totalCost` and aggregate `estimatedTime` as
the sums over its steps, and maps the empty agent list to the empty
plan with zero cost and zero time. -/
theorem C8_plan_builder (task : String) (agents : List RecOut) :
    (buildExecutionPlan task agents).steps.length = min agents.length 5 ∧
    (∀ i, (h : i < (buildExecutionPlan task agents).steps.length) →
      ((buildExecutionPlan task agents).steps.get ⟨i, h⟩).step = i + 1 ∧
      ((buildExecutionPlan task agents).steps.get ⟨i, h⟩).estimatedTime =
        500 + (i : Int) * 200 ∧
      ∃ h2 : i < agents.length,
        ((buildExecutionPlan task agents).steps.get ⟨i, h⟩).agentId =
          (agents.get ⟨i, h2⟩).id) ∧
    (buildExecutionPlan task agents).totalCost =
      ((buildExecutionPlan task agents).steps.map
        (fun p => p.estimatedCost)).sum ∧
    (buildExecutionPlan task agents).estimatedTime =
      ((buildExecutionPlan task agents).steps.map
        (fun p => p.estimatedTime)).sum ∧
    buildExecutionPlan task ([] : List RecOut) =
      { steps := [], totalCost := 0, estimatedTime := 0 } := by
  rcases agents with _ | ⟨a, rest⟩
  · refine ⟨by simp [buildExecutionPlan], ?_, by simp [buildExecutionPlan], by simp [buildExecutionPlan], rfl⟩
    intro i h
    simp [buildExecutionPlan] at h
  · have hne : ¬ (a :: rest).isEmpty = true := by simp
    refine ⟨?_, ?_, ?_, ?_, rfl⟩
    · simp only [buildExecutionPlan, if_neg hne]
      simp only [List.length_map, List.enum_length, List.length_take]
      omega
    · intro i h
      simp only [buildExecutionPlan, if_neg hne] at h ⊢
      rw [List.length_map, List.enum_length] at h
      have hi5 : i < ((a :: rest).take 5).length := h
      have hilen : i < (a :: rest).length := lt_of_lt_of_le hi5
        (by simpa using List.length_take_le 5 (a :: rest))
      refine ⟨?_, ?_, hilen, ?_⟩
      · simp [List.get_eq_getElem, List.getElem_map, List.getElem_enum]
      · simp [List.get_eq_getElem, List.getElem_map, List.getElem_enum]
      · simp [List.get_eq_getElem, List.getElem_map, List.getElem_enum]
        rcases i with _ | j
        · rfl
        · simp [List.getElem_take]
    · simp only [buildExecutionPlan, if_neg hne]
      rw [foldl_add_eq_sum]
      ring
    · simp only [buildExecutionPlan, if_neg hne]
      rw [foldl_add_eq_sum]
      ring

/-- Witness for C8 on a concrete two-agent list: the second step
(0-indexed 1) has time 700. -/
theorem C8_witness :
    ((buildExecutionPlan "t" recsW).steps.get ⟨1, by decide⟩).estimatedTime =
      500 + (1 : Int) * 200 := by
  have h := (C8_plan_builder "t" recsW).2.1 1 (by decide)
  exact h.2.1

/-! ### C9: recommendation scoring, ordering, filtering (corrected) -/

theorem matchEntriesAux_spec (needed : List String) :
    ∀ (i : Nat) (l : List Agent), ∀ e ∈ matchEntriesAux needed i l,
      e.agent ∈ l ∧
      e.matchedCapabilities =
        e.agent.capabilities.filter (fun c => needed.contains c) ∧
      e.score = mkRat e.matchedCapabilities.length needed.length := by
  intro i l
  induction l generalizing i with
  | nil => intro e he; simp [matchEntriesAux] at he
  | cons a rest ih =>
    intro e he
    simp only [matchEntriesAux] at he
    by_cases hm : (a.capabilities.filter (fun cap => needed.contains cap)).isEmpty
    · rw [if_pos hm] at he
      obtain ⟨h1, h2, h3⟩ := ih (i + 1) e he
      exact ⟨List.mem_cons_of_mem _ h1, h2, h3⟩
    · rw [if_neg hm] at he
      rcases List.mem_cons.mp he with rfl | he2
      · exact ⟨List.mem_cons_self _ _, rfl, rfl⟩
      · obtain ⟨h1, h2, h3⟩ := ih (i + 1) e he2
        exact ⟨List.mem_cons_of_mem _ h1, h2, h3⟩

theorem matchEntriesAux_idx_ge (needed : List String) :
    ∀ (i : Nat) (l : List Agent), ∀ e ∈ matchEntriesAux needed i l,
      i ≤ e.idx := by
  intro i l
  induction l generalizing i with
  | nil => intro e he; simp [matchEntriesAux] at he
  | cons a rest ih =>
    intro e he
    simp only [matchEntriesAux] at he
    by_cases hm : (a.capabilities.filter (fun cap => needed.contains cap)).isEmpty
    · rw [if_pos hm] at he
      exact le_trans (Nat.le_succ i) (ih (i + 1) e he)
    · rw [if_neg hm] at he
      rcases List.mem_cons.mp he with rfl | he2
      · exact le_rfl
      · exact le_trans (Nat.le_succ i) (ih (i + 1) e he2)

theorem matchEntriesAux_pairwise (needed : List String) :
    ∀ (i : Nat) (l : List Agent),
      (matchEntriesAux needed i l).Pairwise (fun a b => a.idx < b.idx) := by
  intro i l
  induction l generalizing i with
  | nil => simp [matchEntriesAux]
  | cons a rest ih =>
    simp only [matchEntriesAux]
    by_cases hm : (a.capabilities.filter (fun cap => needed.contains cap)).isEmpty
    · rw [if_pos hm]
      exact ih (i + 1)
    · rw [if_neg hm]
      refine List.Pairwise.cons ?_ (ih (i + 1))
      intro y hy
      exact lt_of_lt_of_le (Nat.lt_succ_self i)
        (matchEntriesAux_idx_ge needed (i + 1) rest y hy)

theorem mem_insertByScore {x y : MatchEntry} :
    ∀ {l : List MatchEntry}, y ∈ insertByScore x l ↔ y = x ∨ y ∈ l := by
  intro l
  induction l with
  | nil => simp [insertByScore]
  | cons z rest ih =>
    rw [insertByScore]
    by_cases h : x.score < z.score
    · rw [if_pos h]
      constructor
      · intro hy
        rcases List.mem_cons.mp hy with rfl | hy2
        · right; exact List.mem_cons_self _ _
        · rcases ih.mp hy2 with h3 | h3
          · left; exact h3
          · right; exact List.mem_cons_of_mem _ h3
      · intro hy
        rcases hy with rfl | hy2
        · exact List.mem_cons_of_mem _ (ih.mpr (Or.inl rfl))
        · rcases List.mem_cons.mp hy2 with rfl | h3
          · exact List.mem_cons_self _ _
          · exact List.mem_cons_of_mem _ (ih.mpr (Or.inr h3))
    · rw [if_neg h]
      exact List.mem_cons

theorem insertByScore_pairwise {x : MatchEntry} :
    ∀ {l : List MatchEntry}, l.Pairwise scoreTieOrder →
      (∀ y ∈ l, x.idx < y.idx) →
      (insertByScore x l).Pairwise scoreTieOrder := by
  intro l
  induction l with
  | nil => intro _ _; simp [insertByScore]
  | cons y t ih =>
    intro hp hx
    obtain ⟨hy, ht⟩ := List.pairwise_cons.mp hp
    rw [insertByScore]
    by_cases h : x.score < y.score
    · rw [if_pos h]
      refine List.pairwise_cons.mpr
        ⟨?_, ih ht (fun z hz => hx z (List.mem_cons_of_mem _ hz))⟩
      intro z hz
      rcases mem_insertByScore.mp hz with rfl | hz2
      · exact Or.inl h
      · exact hy z hz2
    · rw [if_neg h]
      have hxy : y.score ≤ x.score := not_lt.mp h
      refine List.pairwise_cons.mpr ⟨?_, hp⟩
      intro z hz
      rcases List.mem_cons.mp hz with rfl | hz2
      · rcases lt_or_eq_of_le hxy with hlt | heq
        · exact Or.inl hlt
        · exact Or.inr ⟨heq.symm, hx z (List.mem_cons_self _ _)⟩
      · rcases hy z hz2 with hlt | ⟨heq, _⟩
        · exact Or.inl (lt_of_lt_of_le hlt hxy)
        · rcases lt_or_eq_of_le hxy with hlt2 | heq2
          · exact Or.inl (heq ▸ hlt2)
          · exact Or.inr ⟨heq2.symm.trans heq,
              hx z (List.mem_cons_of_mem _ hz2)⟩

theorem mem_sortByScoreDesc {y : MatchEntry} :
    ∀ {l : List MatchEntry}, y ∈ sortByScoreDesc l ↔ y ∈ l := by
  intro l
  induction l with
  | nil => simp [sortByScoreDesc]
  | cons x t ih =>
    show y ∈ insertByScore x (sortByScoreDesc t) ↔ _
    rw [mem_insertByScore, ih]
    exact (List.mem_cons).symm

theorem sortByScoreDesc_pairwise :
    ∀ {l : List MatchEntry}, l.Pairwise (fun a b => a.idx < b.idx) →
      (sortByScoreDesc l).Pairwise scoreTieOrder := by
  intro l
  induction l with
  | nil => intro _; simp [sortByScoreDesc]
  | cons x t ih =>
    intro hp
    obtain ⟨hx, ht⟩ := List.pairwise_cons.mp hp
    show (insertByScore x (sortByScoreDesc t)).Pairwise scoreTieOrder
    exact insertByScore_pairwise (ih ht)
      (fun y hy => hx y (mem_sortByScoreDesc.mp hy))

theorem recommendations_budget {catalog : List Agent} {needed : List String}
    {b : Int} (hb : b ≠ 0) :
    ∀ r ∈ recommendations catalog needed (some b),
      r.pricing.basePrice ≤ b := by
  intro r hr
  unfold recommendations at hr
  obtain ⟨m, hm, rfl⟩ := List.mem_map.mp hr
  have hf := (List.mem_filter.mp hm).2
  simp only [budgetFilter] at hf
  rw [if_neg hb] at hf
  simpa [mkRecOut] using hf

/-- C9 counterexample: with a sole agent priced 500 and the (supplied)
budget 0, `/recommend` still returns the agent — 0 is falsy, so the
claimed `basePrice <= budget` filter is skipped. -/
theorem C9_counterexample :
    (recommendHandler [agentA] "please summarize this" none
        (some 0)).recsOf.map (fun r => r.pricing.basePrice) = [500] ∧
    ¬ ((500 : Int) ≤ 0) := by
  exact ⟨by with_unfolding_all decide, by decide⟩

/-- C9 (amended): every matching entry of `/recommend` scores
`|matched| / |needed|`, the ranking is descending by score with ties in
encounter order, the result is truncated to 10, and — when a nonzero
budget is supplied — filtered by `basePrice <= budget` (a supplied
budget of 0 disables the filter); `matchScore` reports
`round(score * 100)`. -/
theorem C9_recommend_scoring (catalog : List Agent) (task : String)
    (capsOpt : Option (List String)) (budget : Option Int)
    (htask : task ≠ "") :
    recommendHandler catalog task capsOpt budget =
      .ok task (neededCaps task capsOpt)
        ((recommendations catalog (neededCaps task capsOpt) budget).take 10)
        (buildExecutionPlan task
          (recommendations catalog (neededCaps task capsOpt) budget))
        (buildExecutionPlan task
          (recommendations catalog (neededCaps task capsOpt) budget)).totalCost ∧
    (∀ e ∈ matchEntries catalog (neededCaps task capsOpt),
      e.agent ∈ catalog ∧
      e.matchedCapabilities = e.agent.capabilities.filter
        (fun c => (neededCaps task capsOpt).contains c) ∧
      e.score = (e.matchedCapabilities.length : ℚ) /
        ((neededCaps task capsOpt).length : ℚ)) ∧
    (sortByScoreDesc (matchEntries catalog (neededCaps task capsOpt))).Pairwise
      scoreTieOrder ∧
    ((sortByScoreDesc (matchEntries catalog (neededCaps task capsOpt))).filter
      (fun m => budgetFilter budget m.agent.pricing.basePrice)).Pairwise
      scoreTieOrder ∧
    ((recommendations catalog (neededCaps task capsOpt) budget).take 10).length
      ≤ 10 ∧
    (∀ b : Int, budget = some b → b ≠ 0 →
      ∀ r ∈ (recommendations catalog (neededCaps task capsOpt) budget).take 10,
        r.pricing.basePrice ≤ b) ∧
    (∀ m : MatchEntry, (mkRecOut m).matchScore = jsRound (m.score * 100)) := by
  refine ⟨?_, ?_, ?_, ?_, ?_, ?_, fun m => rfl⟩
  · simp [recommendHandler, htask]
  · intro e he
    obtain ⟨h1, h2, h3⟩ :=
      matchEntriesAux_spec (neededCaps task capsOpt) 0 catalog e he
    refine ⟨h1, h2, ?_⟩
    rw [h3, Rat.mkRat_eq_div]
    push_cast
    ring
  · exact sortByScoreDesc_pairwise (matchEntriesAux_pairwise _ 0 catalog)
  · exact (sortByScoreDesc_pairwise
      (matchEntriesAux_pairwise _ 0 catalog)).sublist (List.filter_sublist _)
  · exact List.length_take_le 10 _
  · intro b hbeq hb r hr
    subst hbeq
    exact recommendations_budget hb r (List.take_subset 10 _ hr)

set_option maxRecDepth 8000 in
/-- Witness for C9 (amended): the sole agent with capability
`summarize` and price 500, task `"please summarize this"`, budget 1000:
inferred capabilities `["summarize"]`, one recommendation with
`matchScore = 100`. -/
theorem C9_witness :
    (recommendHandler [agentA] "please summarize this" none
        (some 1000)).recsOf.map RecOut.matchScore = [100] ∧
    neededCaps "please summarize this" none = ["summarize"] := by
  have h := (C9_recommend_scoring [agentA] "please summarize this" none
    (some 1000) (by decide)).1
  constructor
  · rw [h]
    with_unfolding_all decide
  · decide
